import Mathlib

/-! Waterline query integrator

A shallow embedding of `lib/waterline/query/integrator/index.js`: the function
`integrate(cache, joinInstructions, cb)` and its local helper `_sanitize`.

JavaScript objects are association lists in insertion order, read by the first
entry with a given key.  Mutation is explicit state passing: `integrate` returns,
next to what the callback receives, the cache as the call leaves it.  The cache
tables are taken to be pairwise distinct arrays of pairwise distinct row objects,
so that the only aliasing is the one the source sets up itself
(`var results = cache[parent]`).

Numbers are integers (record identifiers); `NaN` and fractions are not modelled.
-/

namespace Waterline

/-! ## Values -/

/-- A JavaScript value as it can occur in a record: a scalar, or (once an
association has been populated) an array of records. -/
inductive Val where
  | undef
  | null
  | bool (b : Bool)
  | num (n : Int)
  | str (s : String)
  | arr (items : List Val)
  | obj (fields : List (String × Val))

/-- A record: column name to value, in insertion order. -/
abbrev Row := List (String × Val)

/-- An ordered record set. -/
abbrev Table := List Row

/-- The cache: table name to record set. -/
abbrev Cache := List (String × Table)

/-- One join instruction `{ parent, parentKey, child, childKey, alias }`. -/
structure JoinInstruction where
  -- `alias` is reserved in Lean: the field is `aliasName`
  parent : String
  parentKey : String
  child : String
  childKey : String
  aliasName : String
  deriving DecidableEq

mutual
/-- Equality of two values, by value. -/
def Val.beq : Val → Val → Bool
  | .undef, .undef => true
  | .null, .null => true
  | .bool a, .bool b => a == b
  | .num a, .num b => a == b
  | .str a, .str b => a == b
  | .arr a, .arr b => Val.beqList a b
  | .obj a, .obj b => Val.beqFields a b
  | _, _ => false
/-- Equality of two arrays of values, element by element. -/
def Val.beqList : List Val → List Val → Bool
  | [], [] => true
  | a :: as, b :: bs => Val.beq a b && Val.beqList as bs
  | _, _ => false
/-- Equality of two objects, entry by entry. -/
def Val.beqFields : List (String × Val) → List (String × Val) → Bool
  | [], [] => true
  | (k, a) :: as, (l, b) :: bs => k == l && Val.beq a b && Val.beqFields as bs
  | _, _ => false
end

/-- JavaScript truthiness, `!!v`: `undefined`, `null`, `false`, `0` and `""` are
falsy, every other value (arrays and objects included) is truthy. -/
def truthy : Val → Bool
  | .undef => false
  | .null => false
  | .bool b => b
  | .num n => n != 0
  | .str s => s != ""
  | .arr _ => true
  | .obj _ => true

/-- Whether a value is an array. -/
def isArray : Val → Bool
  | .arr _ => true
  | _ => false

/-! ## Objects -/

/-- Property read `row[k]`: `undefined` when the column is missing. -/
def getProp (row : Row) (k : String) : Val :=
  (List.lookup k row).getD Val.undef

/-- Property write `row[k] = v`: an existing column keeps its place, a new one
is appended. -/
def setProp : Row → String → Val → Row
  | [], k, v => [(k, v)]
  | c :: cs, k, v => if c.1 = k then (k, v) :: cs else c :: setProp cs k v

/-- Property removal `delete row[k]`. -/
def deleteProp (row : Row) (k : String) : Row :=
  row.filter (fun c => decide (c.1 ≠ k))

/-- Column names of a record, `Object.keys(row)`. -/
def objectKeys (row : Row) : List String :=
  row.map Prod.fst

/-- The lodash `_.omit(row, names)`, a copy of the record without the named
columns (`omit` is reserved in Lean). -/
def omitCols (row : Row) (names : List String) : Row :=
  row.filter (fun c => decide (c.1 ∉ names))

/-- Table read `cache[name]`.  A table the cache does not hold reads as
`undefined`, which the collection helpers treat as the empty sequence. -/
def tableOf (cache : Cache) (name : String) : Table :=
  (List.lookup name cache).getD []

/-- The cache after the rows of table `name` have been mutated into `rows`. -/
def setTable : Cache → String → Table → Cache
  | [], name, rows => [(name, rows)]
  | t :: ts, name, rows => if t.1 = name then (name, rows) :: ts else t :: setTable ts name rows

/-! ## The two collaborators -/

/-- Equality of two key values (join keys and link values), by value. Keys are
scalars in the record sets at hand; no coercion between types is modelled. -/
def keyEq (a b : Val) : Bool := Val.beq a b

/-- Columns of the left row followed by those of the right row; where both have
a column, the right value is kept (in the left column's place). -/
def mergeRows (l r : Row) : Row :=
  r.foldl (fun acc c => setProp acc c.1 c.2) l

/-- Modelled from the spec: `./leftOuterJoin` is not part of the sources at hand.
`join(left, right, leftKey, rightKey) -> mergedRows`: every left row appears at
least once; it appears once per matching right row, merged, or once alone with
the right-side columns absent if no right row matches. -/
def leftOuterJoin (left right : Table) (leftKey rightKey : String) : Table :=
  left.flatMap (fun l =>
    match right.filter (fun r => keyEq (getProp l leftKey) (getProp r rightKey)) with
    | [] => [l]
    | ms => ms.map (fun r => mergeRows l r))

/-- Modelled from the spec: `./populate` is not part of the sources at hand.
`populate(baseRows, alias, joinedRows, parentKey)`: the joined rows are grouped
by their `parentKey` column (the link value), and every base row gets under
`aliasName` the ordered sequence of the joined rows whose link value equals its own
`parentKey` value, the empty sequence when there is none.  Base rows keep their
order. -/
def populate (baseRows : Table) (aliasName : String) (joinedRows : Table) (parentKey : String) :
    Table :=
  baseRows.map (fun row =>
    setProp row aliasName
      (Val.arr ((joinedRows.filter
        (fun j => keyEq (getProp j parentKey) (getProp row parentKey))).map Val.obj)))

/-! ## `_sanitize` -/

/-- What `_sanitize` pushes for a row it keeps: omit the parent columns, delete
`fk`, write the former `fk` value under `pk`. -/
def sanitizeRow (fk pk : String) (attributesToOmit : List String) (row : Row) : Row :=
  let pkValue := getProp row fk
  let sanitizedRow := omitCols row attributesToOmit
  let sanitizedRow := deleteProp sanitizedRow fk
  setProp sanitizedRow pk pkValue

/-- The reducer `_sanitize` folds over the rows: a row whose `fk` is falsy leaves
`memo` as it is, any other row is cleaned and pushed. -/
def sanitizeStep (fk pk : String) (attributesToOmit : List String) (memo : Table) (row : Row) :
    Table :=
  if !truthy (getProp row fk) then memo
  else memo ++ [sanitizeRow fk pk attributesToOmit row]

/-- The helper `_sanitize({ rows, fk, pk, attributesToOmit })`:
`_.reduce(rows, ..., [])`. -/
def _sanitize (rows : Table) (fk pk : String) (attributesToOmit : List String) : Table :=
  rows.foldl (sanitizeStep fk pk attributesToOmit) []

/-! ## `integrate` -/

/-- An argument as the caller passes it: `null`, a value of another type than the
one expected, or a value of the expected type. -/
inductive Arg (α : Type) where
  | null
  | mistyped
  | val (a : α)

/-- What the caller gets back. `invalid n`: the callback received the error of
the `n`-th validation line and no results. `typeError`: an exception was thrown
and the callback never ran. `ok results`: the callback received `null` and the
results. -/
inductive Outcome where
  | invalid (check : Nat)
  | typeError
  | ok (results : Table)

/-- Outcome of a call together with both arguments as the call leaves them. -/
structure Final where
  outcome : Outcome
  cache : Arg Cache
  joinInstructions : Arg (List JoinInstruction)

/-- Aliases of the instructions in first-seen order: the keys of
`_.groupBy(joinInstructions, 'alias')`. -/
def aliasesOf : List JoinInstruction → List String
  | [] => []
  | i :: is => i.aliasName :: (aliasesOf is).filter (fun a => decide (a ≠ i.aliasName))

/-- The lodash `_.groupBy(joinInstructions, 'alias')`: per alias, the
instructions carrying it, in their order. -/
def groupByAlias (joinInstructions : List JoinInstruction) :
    List (String × List JoinInstruction) :=
  (aliasesOf joinInstructions).map
    (fun a => (a, joinInstructions.filter (fun i => decide (i.aliasName = a))))

/-- The rows handed to `populate` on the 1..N path: the join with the parent
columns omitted. -/
def oneToManyRows (cache : Cache) (parentAttributeNames : List String) (i0 : JoinInstruction) :
    Table :=
  (leftOuterJoin (tableOf cache i0.parent) (tableOf cache i0.child) i0.parentKey i0.childKey).map
    (fun result => omitCols result parentAttributeNames)

/-- The rows handed to `populate` on the N..N path: the two chained joins,
sanitized. -/
def manyToManyRows (cache : Cache) (parentAttributeNames : List String)
    (i0 i1 : JoinInstruction) : Table :=
  _sanitize
    (leftOuterJoin
      (leftOuterJoin (tableOf cache i0.parent) (tableOf cache i0.child) i0.parentKey i0.childKey)
      (tableOf cache i1.child) i1.parentKey i1.childKey)
    i1.parentKey i1.childKey parentAttributeNames

/-- The lambda `eachAssociation(instructions, alias)`. `results` is the array
`cache[parent]` itself, so populating it is a mutation of that table of the
cache. A group of neither two nor one instruction falls through both branches. -/
def eachAssociation (parent parentPK : String) (parentAttributeNames : List String)
    (cache : Cache) (aliasName : String) (instructions : List JoinInstruction) : Cache :=
  match instructions with
  | [i0, i1] =>
    setTable cache parent
      (populate (tableOf cache parent) aliasName (manyToManyRows cache parentAttributeNames i0 i1)
        parentPK)
  | [i0] =>
    setTable cache parent
      (populate (tableOf cache parent) aliasName (oneToManyRows cache parentAttributeNames i0)
        parentPK)
  | _ => cache

/-- The loop `_.each(_.groupBy(joinInstructions, 'alias'), eachAssociation)`. -/
def eachGroup (parent parentPK : String) (parentAttributeNames : List String)
    (groups : List (String × List JoinInstruction)) (cache : Cache) : Cache :=
  groups.foldl (fun c g => eachAssociation parent parentPK parentAttributeNames c g.1 g.2) cache

/-- The function `integrate(cache, joinInstructions, cb)`, with `cb` a function.
The validation lines are numbered 1 to 5 as in the source; the check of a later
line is not evaluated once an earlier one has failed. `Object.keys(cache[parent][0])`
throws when the parent table has no first row. -/
def integrate (cache : Arg Cache) (joinInstructions : Arg (List JoinInstruction)) : Final :=
  match cache with
  | .val c =>
    match joinInstructions with
    | .val [] => ⟨.invalid 3, cache, joinInstructions⟩
    | .val (i0 :: is) =>
      match List.lookup i0.parent c with
      | none => ⟨.invalid 5, cache, joinInstructions⟩
      | some [] => ⟨.typeError, cache, joinInstructions⟩
      | some (first :: _) =>
        let parent := i0.parent
        let parentPK := i0.parentKey
        let parentAttributeNames := objectKeys first
        let c1 := eachGroup parent parentPK parentAttributeNames (groupByAlias (i0 :: is)) c
        ⟨.ok (tableOf c1 parent), .val c1, joinInstructions⟩
    | _ => ⟨.invalid 2, cache, joinInstructions⟩
  | _ => ⟨.invalid 1, cache, joinInstructions⟩

/-! ## The scenarios of the specification -/

/-- Instruction of Scenario A: `user` has many `post` under `posts`. -/
def userPosts : JoinInstruction :=
  { parent := "user", parentKey := "id", child := "post", childKey := "userId", aliasName := "posts" }

/-- Cache of Scenario A. -/
def cacheA : Cache :=
  [("user", [[("id", .num 1), ("name", .str "A")]]),
   ("post", [[("id", .num 10), ("userId", .num 1), ("title", .str "X")],
             [("id", .num 11), ("userId", .num 1), ("title", .str "Y")]])]

/-- First instruction of Scenario B: `user` to the junction `user_tag`. -/
def userToJunction : JoinInstruction :=
  { parent := "user", parentKey := "id", child := "user_tag", childKey := "userId",
    aliasName := "tags" }

/-- Second instruction of Scenario B: the junction `user_tag` to `tag`. -/
def junctionToTag : JoinInstruction :=
  { parent := "user_tag", parentKey := "tagId", child := "tag", childKey := "id",
    aliasName := "tags" }

/-- Cache of Scenario B. -/
def cacheB : Cache :=
  [("user", [[("id", .num 1), ("name", .str "A")]]),
   ("user_tag", [[("id", .num 100), ("userId", .num 1), ("tagId", .num 9)]]),
   ("tag", [[("id", .num 9), ("label", .str "vip")]])]

/-- Cache of Scenario C: Scenario A with no post. -/
def cacheC : Cache :=
  [("user", [[("id", .num 1), ("name", .str "A")]]), ("post", [])]

/-- Cache where the parent column `owner` has the name of the alias. -/
def cachePets : Cache :=
  [("pet", [[("id", .num 1), ("owner", .num 7)]]),
   ("user", [[("id", .num 7), ("name", .str "Z")]])]

/-- Instruction populating `owner` of a `pet` from `user`. -/
def petOwner : JoinInstruction :=
  { parent := "pet", parentKey := "owner", child := "user", childKey := "id",
    aliasName := "owner" }

/-- Cache where the first parent row lacks the optional key column `ownerId`
and no user is cached. -/
def cacheStray : Cache :=
  [("pet", [[("id", .num 1), ("name", .str "Rex")],
            [("id", .num 2), ("name", .str "Tom"), ("ownerId", .num 7)]]),
   ("user", [])]

/-- Instruction populating `owner` of a `pet` through its column `ownerId`. -/
def petOwnerById : JoinInstruction :=
  { parent := "pet", parentKey := "ownerId", child := "user", childKey := "id",
    aliasName := "owner" }


/-- Cache with a one-to-many and a many-to-many association on `user`: user 1 has
no post and is linked to tag 1. -/
def cacheBoth : Cache :=
  [("user", [[("id", .num 1), ("name", .str "A")]]),
   ("post", []),
   ("user_tag", [[("userId", .num 1), ("tagId", .num 1)]]),
   ("tag", [[("id", .num 1), ("label", .str "vip")]])]

/-! ## Objects: basic facts -/

theorem mem_objectKeys_omitCols {row : Row} {names : List String} {c : String}
    (h : c ∈ objectKeys (omitCols row names)) : c ∈ objectKeys row ∧ c ∉ names := by
  unfold objectKeys omitCols at h
  obtain ⟨p, hp, rfl⟩ := List.mem_map.1 h
  obtain ⟨hp1, hp2⟩ := List.mem_filter.1 hp
  exact ⟨List.mem_map.2 ⟨p, hp1, rfl⟩, by simpa using hp2⟩

theorem mem_objectKeys_deleteProp {row : Row} {k c : String}
    (h : c ∈ objectKeys (deleteProp row k)) : c ∈ objectKeys row ∧ c ≠ k := by
  unfold objectKeys deleteProp at h
  obtain ⟨p, hp, rfl⟩ := List.mem_map.1 h
  obtain ⟨hp1, hp2⟩ := List.mem_filter.1 hp
  exact ⟨List.mem_map.2 ⟨p, hp1, rfl⟩, by simpa using hp2⟩

theorem mem_objectKeys_setProp {row : Row} {k c : String} {v : Val}
    (h : c ∈ objectKeys (setProp row k v)) : c = k ∨ c ∈ objectKeys row := by
  induction row with
  | nil => simpa [setProp, objectKeys] using h
  | cons d ds ih =>
    unfold setProp at h
    split at h
    · rename_i hd
      simp only [objectKeys, List.map_cons, List.mem_cons] at h ⊢
      rcases h with h | h
      · exact Or.inl h
      · exact Or.inr (Or.inr h)
    · simp only [objectKeys, List.map_cons, List.mem_cons] at h ih ⊢
      rcases h with h | h
      · exact Or.inr (Or.inl h)
      · rcases ih h with h1 | h1
        · exact Or.inl h1
        · exact Or.inr (Or.inr h1)

theorem getProp_setProp_self (row : Row) (k : String) (v : Val) :
    getProp (setProp row k v) k = v := by
  induction row with
  | nil => simp [setProp, getProp, List.lookup]
  | cons d ds ih =>
    unfold setProp
    split
    · simp [getProp, List.lookup]
    · rename_i hd
      have hk : (k == d.1) = false := by
        simpa [beq_eq_false_iff_ne] using fun h => hd h.symm
      obtain ⟨d1, d2⟩ := d
      simp only [getProp, List.lookup] at ih ⊢
      simp only at hk
      rw [hk]
      exact ih

theorem getProp_setProp_of_ne (row : Row) {k k2 : String} (v : Val) (h : k2 ≠ k) :
    getProp (setProp row k v) k2 = getProp row k2 := by
  induction row with
  | nil =>
    have hk : (k2 == k) = false := by simpa [beq_eq_false_iff_ne] using h
    simp [setProp, getProp, List.lookup, hk]
  | cons d ds ih =>
    obtain ⟨d1, d2⟩ := d
    unfold setProp
    split
    · rename_i hd
      simp only at hd
      subst hd
      have hk : (k2 == d1) = false := by simpa [beq_eq_false_iff_ne] using h
      simp [getProp, List.lookup, hk]
    · simp only [getProp, List.lookup] at ih ⊢
      cases hb : k2 == d1
      · simpa using ih
      · rfl

theorem omitCols_setProp_of_mem (row : Row) {k : String} (v : Val) {names : List String}
    (h : k ∈ names) : omitCols (setProp row k v) names = omitCols row names := by
  induction row with
  | nil => simp [setProp, omitCols, h]
  | cons d ds ih =>
    unfold setProp
    split
    · rename_i hd
      have hd2 : d.1 ∈ names := hd ▸ h
      simp [omitCols, List.filter_cons, h, hd2]
    · simp only [omitCols, List.filter_cons] at ih ⊢
      rw [ih]

theorem tableOf_setTable_self (cache : Cache) (name : String) (rows : Table) :
    tableOf (setTable cache name rows) name = rows := by
  induction cache with
  | nil => simp [setTable, tableOf, List.lookup]
  | cons d ds ih =>
    unfold setTable
    split
    · simp [tableOf, List.lookup]
    · rename_i hd
      have hk : (name == d.1) = false := by
        simpa [beq_eq_false_iff_ne] using fun h => hd h.symm
      obtain ⟨d1, d2⟩ := d
      simp only [tableOf, List.lookup] at ih ⊢
      simp only at hk
      rw [hk]
      exact ih

/-! ## `_sanitize`: basic facts -/

theorem foldl_sanitizeStep (fk pk : String) (names : List String) (rows : Table) (memo : Table) :
    rows.foldl (sanitizeStep fk pk names) memo
      = memo ++ (rows.filter (fun r => truthy (getProp r fk))).map (sanitizeRow fk pk names) := by
  induction rows generalizing memo with
  | nil => simp
  | cons r rs ih =>
    rw [List.foldl_cons, ih]
    cases ht : truthy (getProp r fk) <;> simp [sanitizeStep, ht, List.filter_cons]

theorem sanitize_eq_filter_map (rows : Table) (fk pk : String) (names : List String) :
    _sanitize rows fk pk names
      = (rows.filter (fun r => truthy (getProp r fk))).map (sanitizeRow fk pk names) := by
  unfold _sanitize
  rw [foldl_sanitizeStep]
  rfl

/-! ## `populate` and the loop over the associations -/

theorem populate_isArray (baseRows : Table) (a : String) (joinedRows : Table) (pk : String) :
    ∀ row ∈ populate baseRows a joinedRows pk, isArray (getProp row a) = true := by
  intro row hrow
  unfold populate at hrow
  obtain ⟨b, -, rfl⟩ := List.mem_map.1 hrow
  rw [getProp_setProp_self]
  rfl

theorem populate_preserves_isArray (baseRows : Table) (a b : String) (joinedRows : Table)
    (pk : String) (h : ∀ row ∈ baseRows, isArray (getProp row a) = true) :
    ∀ row ∈ populate baseRows b joinedRows pk, isArray (getProp row a) = true := by
  by_cases hab : a = b
  · subst hab
    exact populate_isArray baseRows a joinedRows pk
  · intro row hrow
    unfold populate at hrow
    obtain ⟨r, hr, rfl⟩ := List.mem_map.1 hrow
    rw [getProp_setProp_of_ne _ _ hab]
    exact h r hr

theorem populate_omitCols (baseRows : Table) {a : String} (joinedRows : Table) (pk : String)
    {names : List String} (h : a ∈ names) :
    (populate baseRows a joinedRows pk).map (fun r => omitCols r names)
      = baseRows.map (fun r => omitCols r names) := by
  unfold populate
  rw [List.map_map]
  apply List.map_congr_left
  intro r _
  exact omitCols_setProp_of_mem r _ h

theorem eachAssociation_preserves_isArray (parent parentPK : String) (pnames : List String)
    (cache : Cache) (a b : String) (instructions : List JoinInstruction)
    (h : ∀ row ∈ tableOf cache parent, isArray (getProp row a) = true) :
    ∀ row ∈ tableOf (eachAssociation parent parentPK pnames cache b instructions) parent,
      isArray (getProp row a) = true := by
  unfold eachAssociation
  split
  · rw [tableOf_setTable_self]
    exact populate_preserves_isArray _ _ _ _ _ h
  · rw [tableOf_setTable_self]
    exact populate_preserves_isArray _ _ _ _ _ h
  · exact h

theorem eachAssociation_isArray (parent parentPK : String) (pnames : List String)
    (cache : Cache) (a : String) (instructions : List JoinInstruction)
    (h : instructions.length = 1 ∨ instructions.length = 2) :
    ∀ row ∈ tableOf (eachAssociation parent parentPK pnames cache a instructions) parent,
      isArray (getProp row a) = true := by
  unfold eachAssociation
  split
  · rw [tableOf_setTable_self]
    exact populate_isArray _ _ _ _
  · rw [tableOf_setTable_self]
    exact populate_isArray _ _ _ _
  · rename_i h2 h1
    exfalso
    match instructions, h with
    | [i0], _ => exact h1 i0 rfl
    | [i0, i1], _ => exact h2 i0 i1 rfl
    | [], h => simp at h
    | _ :: _ :: _ :: _, h => simp at h

theorem eachAssociation_omitCols (parent parentPK : String) (pnames : List String)
    (cache : Cache) {a : String} (instructions : List JoinInstruction) {names : List String}
    (h : a ∈ names) :
    (tableOf (eachAssociation parent parentPK pnames cache a instructions) parent).map
        (fun r => omitCols r names)
      = (tableOf cache parent).map (fun r => omitCols r names) := by
  unfold eachAssociation
  split
  · rw [tableOf_setTable_self]
    exact populate_omitCols _ _ _ h
  · rw [tableOf_setTable_self]
    exact populate_omitCols _ _ _ h
  · rfl

theorem eachGroup_preserves_isArray (parent parentPK : String) (pnames : List String) (a : String)
    (groups : List (String × List JoinInstruction)) (cache : Cache)
    (h : ∀ row ∈ tableOf cache parent, isArray (getProp row a) = true) :
    ∀ row ∈ tableOf (eachGroup parent parentPK pnames groups cache) parent,
      isArray (getProp row a) = true := by
  induction groups generalizing cache with
  | nil => exact h
  | cons g gs ih =>
    exact ih _ (eachAssociation_preserves_isArray parent parentPK pnames cache a g.1 g.2 h)

theorem eachGroup_isArray (parent parentPK : String) (pnames : List String) (a : String)
    (instructions : List JoinInstruction)
    (groups : List (String × List JoinInstruction)) (cache : Cache)
    (hmem : (a, instructions) ∈ groups)
    (hlen : instructions.length = 1 ∨ instructions.length = 2) :
    ∀ row ∈ tableOf (eachGroup parent parentPK pnames groups cache) parent,
      isArray (getProp row a) = true := by
  induction groups generalizing cache with
  | nil => simp at hmem
  | cons g gs ih =>
    rcases List.mem_cons.1 hmem with hg | hg
    · subst hg
      exact eachGroup_preserves_isArray parent parentPK pnames a gs _
        (eachAssociation_isArray parent parentPK pnames cache a instructions hlen)
    · exact ih _ hg

theorem eachGroup_omitCols (parent parentPK : String) (pnames : List String)
    (names : List String) (groups : List (String × List JoinInstruction)) (cache : Cache)
    (h : ∀ g ∈ groups, g.1 ∈ names) :
    (tableOf (eachGroup parent parentPK pnames groups cache) parent).map
        (fun r => omitCols r names)
      = (tableOf cache parent).map (fun r => omitCols r names) := by
  induction groups generalizing cache with
  | nil => rfl
  | cons g gs ih =>
    have h1 := ih (eachAssociation parent parentPK pnames cache g.1 g.2)
      (fun g2 hg2 => h g2 (List.mem_cons_of_mem _ hg2))
    have h2 := eachAssociation_omitCols parent parentPK pnames cache g.2
      (h g (List.mem_cons_self _ _))
    exact h1.trans h2

theorem mem_aliasesOf {a : String} {instructions : List JoinInstruction} :
    a ∈ aliasesOf instructions ↔ ∃ i ∈ instructions, i.aliasName = a := by
  induction instructions with
  | nil => simp [aliasesOf]
  | cons i is ih =>
    simp only [aliasesOf, List.mem_cons, List.mem_filter, decide_eq_true_eq, ih]
    constructor
    · rintro (h | ⟨⟨j, hj, hja⟩, -⟩)
      · exact ⟨i, Or.inl rfl, h.symm⟩
      · exact ⟨j, Or.inr hj, hja⟩
    · rintro ⟨j, hj | hj, hja⟩
      · subst hj; exact Or.inl hja.symm
      · by_cases hai : a = i.aliasName
        · exact Or.inl hai
        · exact Or.inr ⟨⟨j, hj, hja⟩, hai⟩

theorem mem_groupByAlias_of_mem {i : JoinInstruction} {instructions : List JoinInstruction}
    (h : i ∈ instructions) :
    (i.aliasName, instructions.filter (fun j => decide (j.aliasName = i.aliasName)))
      ∈ groupByAlias instructions := by
  unfold groupByAlias
  exact List.mem_map.2 ⟨i.aliasName, mem_aliasesOf.2 ⟨i, h, rfl⟩, rfl⟩

theorem fst_mem_of_mem_groupByAlias {g : String × List JoinInstruction}
    {instructions : List JoinInstruction} (h : g ∈ groupByAlias instructions) :
    g.1 ∈ instructions.map (fun i => i.aliasName) := by
  unfold groupByAlias at h
  obtain ⟨a, ha, rfl⟩ := List.mem_map.1 h
  obtain ⟨i, hi, hia⟩ := mem_aliasesOf.1 ha
  exact List.mem_map.2 ⟨i, hi, hia⟩

theorem integrate_ok_inv {c : Cache} {i0 : JoinInstruction} {rest : List JoinInstruction}
    {results : Table}
    (hok : (integrate (.val c) (.val (i0 :: rest))).outcome = .ok results) :
    ∃ first others, tableOf c i0.parent = first :: others
      ∧ results = tableOf (eachGroup i0.parent i0.parentKey (objectKeys first)
          (groupByAlias (i0 :: rest)) c) i0.parent := by
  unfold integrate at hok
  simp only at hok
  cases hl : List.lookup i0.parent c with
  | none => rw [hl] at hok; simp at hok
  | some t =>
    rw [hl] at hok
    cases t with
    | nil => simp at hok
    | cons first others =>
      simp only [Outcome.ok.injEq] at hok
      exact ⟨first, others, by simp [tableOf, hl], hok.symm⟩

/-! ## The one-to-many path loses the link value -/

theorem getProp_omitCols_of_mem (row : Row) {names : List String} {k : String}
    (h : k ∈ names) : getProp (omitCols row names) k = .undef := by
  induction row with
  | nil => rfl
  | cons d ds ih =>
    obtain ⟨d1, d2⟩ := d
    by_cases hd : d1 ∈ names
    · have e : omitCols ((d1, d2) :: ds) names = omitCols ds names := by
        simp [omitCols, List.filter_cons, hd]
      rw [e]
      exact ih
    · have e : omitCols ((d1, d2) :: ds) names = (d1, d2) :: omitCols ds names := by
        simp [omitCols, List.filter_cons, hd]
      have hk : (k == d1) = false := by
        rw [beq_eq_false_iff_ne]
        intro hkd
        exact hd (hkd ▸ h)
      rw [e]
      simp only [getProp, List.lookup, hk] at ih ⊢
      exact ih

/-- The defect behind Scenario A in general: on the one-to-many path, when the
parent key is a column of the first parent row, no row handed to `populate` has
a link value, and every parent row whose key is not `undefined` ends up with the
empty sequence, whatever the child table holds. -/
theorem oneToMany_entries_empty (cache : Cache) (parentAttributeNames : List String)
    (i0 : JoinInstruction) (baseRows : Table) (a parentPK : String)
    (hpk : parentPK ∈ parentAttributeNames) :
    (∀ r ∈ oneToManyRows cache parentAttributeNames i0, getProp r parentPK = .undef)
    ∧ ∀ b ∈ baseRows, keyEq .undef (getProp b parentPK) = false →
        setProp b a (.arr []) ∈
          populate baseRows a (oneToManyRows cache parentAttributeNames i0) parentPK := by
  have h1 : ∀ r ∈ oneToManyRows cache parentAttributeNames i0, getProp r parentPK = .undef := by
    intro r hr
    unfold oneToManyRows at hr
    obtain ⟨j, -, rfl⟩ := List.mem_map.1 hr
    exact getProp_omitCols_of_mem j hpk
  refine ⟨h1, ?_⟩
  intro b hb hne
  unfold populate
  refine List.mem_map.2 ⟨b, hb, ?_⟩
  have hf : (oneToManyRows cache parentAttributeNames i0).filter
      (fun j => keyEq (getProp j parentPK) (getProp b parentPK)) = [] := by
    rw [List.filter_eq_nil_iff]
    intro r hr
    rw [h1 r hr, hne]
    simp
  rw [hf]
  rfl

/-! ## Claims -/

/-- C1, the code at Scenario B: the one row the many-to-many path hands to
`populate` is `{userId: 1, label: "vip", id: 9}`, whose `id` column (the link
value `populate` groups by) holds the tag's key 9 and not the user's key 1, and
the result is `[{id: 1, name: "A", tags: []}]`, not the expected
`[{id: 1, name: "A", tags: [{id: 9, label: "vip"}]}]`. -/
theorem scenarioB_tags_empty :
    manyToManyRows cacheB (objectKeys [("id", .num 1), ("name", .str "A")])
        userToJunction junctionToTag
      = [[("userId", .num 1), ("label", .str "vip"), ("id", .num 9)]]
    ∧ (integrate (.val cacheB) (.val [userToJunction, junctionToTag])).outcome
      = .ok [[("id", .num 1), ("name", .str "A"), ("tags", .arr [])]] :=
  ⟨rfl, rfl⟩

/-- C2, the code at Scenario A: the rows the one-to-many path hands to `populate`
are `{userId: 1, title: "X"}` and `{userId: 1, title: "Y"}`, which no longer have
the parent key column `id` that `populate` groups by, and the result is
`[{id: 1, name: "A", posts: []}]`: user 1 receives no entry instead of two. -/
theorem scenarioA_posts_empty :
    oneToManyRows cacheA (objectKeys [("id", .num 1), ("name", .str "A")]) userPosts
      = [[("userId", .num 1), ("title", .str "X")], [("userId", .num 1), ("title", .str "Y")]]
    ∧ (integrate (.val cacheA) (.val [userPosts])).outcome
      = .ok [[("id", .num 1), ("name", .str "A"), ("posts", .arr [])]] :=
  ⟨rfl, rfl⟩

/-- C3: when the cache is `null` or not a mapping, or the instructions are empty
or not a sequence, or the first instruction's parent names no table of the
cache, `integrate` hands the callback an error and no results, and leaves the
cache and the instruction list as they were passed in. -/
theorem integrate_rejects_invalid_input (cache : Arg Cache)
    (joinInstructions : Arg (List JoinInstruction))
    (h : (cache = .null ∨ cache = .mistyped)
      ∨ (joinInstructions = .val [] ∨ joinInstructions = .null ∨ joinInstructions = .mistyped)
      ∨ ∃ c i is, cache = .val c ∧ joinInstructions = .val (i :: is)
          ∧ List.lookup i.parent c = none) :
    (∃ n, (integrate cache joinInstructions).outcome = .invalid n)
    ∧ (integrate cache joinInstructions).cache = cache
    ∧ (integrate cache joinInstructions).joinInstructions = joinInstructions := by
  rcases h with (h | h) | (h | h | h) | ⟨c, i, is, hc, hj, hl⟩
  · subst h; exact ⟨⟨1, rfl⟩, rfl, rfl⟩
  · subst h; exact ⟨⟨1, rfl⟩, rfl, rfl⟩
  · subst h
    cases cache
    · exact ⟨⟨1, rfl⟩, rfl, rfl⟩
    · exact ⟨⟨1, rfl⟩, rfl, rfl⟩
    · exact ⟨⟨3, rfl⟩, rfl, rfl⟩
  · subst h
    cases cache
    · exact ⟨⟨1, rfl⟩, rfl, rfl⟩
    · exact ⟨⟨1, rfl⟩, rfl, rfl⟩
    · exact ⟨⟨2, rfl⟩, rfl, rfl⟩
  · subst h
    cases cache
    · exact ⟨⟨1, rfl⟩, rfl, rfl⟩
    · exact ⟨⟨1, rfl⟩, rfl, rfl⟩
    · exact ⟨⟨2, rfl⟩, rfl, rfl⟩
  · subst hc hj
    refine ⟨⟨5, ?_⟩, ?_, ?_⟩ <;> simp only [integrate, hl]

/-- C3 at concrete inputs: a `null` cache with the instruction of Scenario A. -/
theorem integrate_rejects_invalid_input_witness :
    (∃ n, (integrate .null (.val [userPosts])).outcome = .invalid n)
    ∧ (integrate .null (.val [userPosts])).cache = .null
    ∧ (integrate .null (.val [userPosts])).joinInstructions = .val [userPosts] :=
  integrate_rejects_invalid_input .null (.val [userPosts]) (Or.inl (Or.inl rfl))

/-- C4, the code on a parent table without rows: the cache `{user: [], post: []}`
with the instruction of Scenario A passes validation, and then
`Object.keys(cache[parent][0])` throws; the callback never receives a result
set. -/
theorem integrate_throws_on_empty_parent :
    (integrate (.val [("user", []), ("post", [])]) (.val [userPosts])).outcome = .typeError :=
  rfl

/-- C5 as stated fails at Scenario B: the row `_sanitize` returns has the column
`id`, which is one of the parent columns `id`, `name`. -/
theorem sanitize_output_has_parent_column :
    ∃ r ∈ manyToManyRows cacheB (objectKeys [("id", .num 1), ("name", .str "A")])
        userToJunction junctionToTag,
      ∃ c ∈ objectKeys r, c ∈ objectKeys [("id", Val.num 1), ("name", Val.str "A")] :=
  ⟨[("userId", .num 1), ("label", .str "vip"), ("id", .num 9)], List.mem_singleton.2 rfl,
    "id", by simp [objectKeys], by simp [objectKeys]⟩

/-- C5, amended: no row of the one-to-many path has a column named in
`parentAttributeNames`, and the only such column a row returned by `_sanitize`
can have is `pk`, written after the omission. -/
theorem no_parent_column_but_pk :
    (∀ (cache : Cache) (parentAttributeNames : List String) (i0 : JoinInstruction),
      ∀ r ∈ oneToManyRows cache parentAttributeNames i0,
        ∀ c ∈ objectKeys r, c ∉ parentAttributeNames)
    ∧ (∀ (rows : Table) (fk pk : String) (attributesToOmit : List String),
      ∀ r ∈ _sanitize rows fk pk attributesToOmit,
        ∀ c ∈ objectKeys r, c ∈ attributesToOmit → c = pk) := by
  constructor
  · intro cache names i0 r hr c hc
    unfold oneToManyRows at hr
    obtain ⟨j, -, rfl⟩ := List.mem_map.1 hr
    exact (mem_objectKeys_omitCols hc).2
  · intro rows fk pk names r hr c hc hmem
    rw [sanitize_eq_filter_map] at hr
    obtain ⟨j, -, rfl⟩ := List.mem_map.1 hr
    rcases mem_objectKeys_setProp hc with h | h
    · exact h
    · exact absurd hmem (mem_objectKeys_omitCols (mem_objectKeys_deleteProp h).1).2

/-- C6: `_sanitize` returns, in input order, exactly one cleaned row for every
input row whose `fk` value is truthy and nothing for the others; so the output
has as many rows as there are input rows with a truthy `fk`, and rows whose `fk`
is all falsy (`undefined`, `null`, `0`, `""`) give the empty output. -/
theorem sanitize_prunes_falsy_fk (rows : Table) (fk pk : String)
    (attributesToOmit : List String) :
    _sanitize rows fk pk attributesToOmit
      = (rows.filter (fun r => truthy (getProp r fk))).map (sanitizeRow fk pk attributesToOmit)
    ∧ (_sanitize rows fk pk attributesToOmit).length
      = rows.countP (fun r => truthy (getProp r fk))
    ∧ ((∀ r ∈ rows, getProp r fk = .undef ∨ getProp r fk = .null ∨ getProp r fk = .num 0
          ∨ getProp r fk = .str "") → _sanitize rows fk pk attributesToOmit = []) := by
  refine ⟨sanitize_eq_filter_map rows fk pk attributesToOmit, ?_, ?_⟩
  · rw [sanitize_eq_filter_map, List.length_map, List.countP_eq_length_filter]
  · intro h
    rw [sanitize_eq_filter_map]
    have hf : rows.filter (fun r => truthy (getProp r fk)) = [] := by
      rw [List.filter_eq_nil_iff]
      intro r hr
      rcases h r hr with e | e | e | e <;> rw [e] <;> simp [truthy]
    rw [hf]
    rfl

/-- C7 as stated fails when `fk` and `pk` are the same name: the row
`{userId: 1, tag: 9, label: "vip"}` has a truthy `tag`, and the row `_sanitize`
returns for `fk = pk = "tag"` still has a column `tag`. -/
theorem sanitize_keeps_fk_named_pk :
    truthy (getProp [("userId", .num 1), ("tag", .num 9), ("label", .str "vip")] "tag") = true
    ∧ _sanitize [[("userId", .num 1), ("tag", .num 9), ("label", .str "vip")]] "tag" "tag"
          ["id", "name"]
        = [[("userId", .num 1), ("label", .str "vip"), ("tag", .num 9)]]
    ∧ "tag" ∈ objectKeys [("userId", .num 1), ("label", .str "vip"), ("tag", (.num 9 : Val))] :=
  ⟨rfl, rfl, by simp [objectKeys]⟩

/-- C7, amended: the rows `_sanitize` returns correspond one to one, in order, to
the input rows with a truthy `fk`; each has under `pk` the value its input row
had under `fk`, and no column named `fk` unless `fk` and `pk` are the same
name. -/
theorem sanitize_renames_fk_to_pk (rows : Table) (fk pk : String)
    (attributesToOmit : List String) :
    List.Forall₂
      (fun r out => getProp out pk = getProp r fk ∧ (fk ≠ pk → fk ∉ objectKeys out))
      (rows.filter (fun r => truthy (getProp r fk)))
      (_sanitize rows fk pk attributesToOmit) := by
  rw [sanitize_eq_filter_map, List.forall₂_map_right_iff]
  apply List.forall₂_same.2
  intro r _
  refine ⟨getProp_setProp_self _ _ _, ?_⟩
  intro hne hmem
  rcases mem_objectKeys_setProp hmem with h | h
  · exact hne h
  · exact (mem_objectKeys_deleteProp h).2 rfl

/-- C8 as stated fails for an alias shared by three instructions: on the cache of
Scenario A with the instruction of Scenario A given three times, `integrate`
succeeds and its one result row has no `posts` property. -/
theorem three_instruction_alias_absent :
    (integrate (.val cacheA) (.val [userPosts, userPosts, userPosts])).outcome
      = .ok [[("id", .num 1), ("name", .str "A")]]
    ∧ getProp [("id", .num 1), ("name", .str "A")] userPosts.aliasName = .undef :=
  ⟨rfl, rfl⟩

/-- C8, amended: after a successful `integrate`, for every alias that exactly one
or exactly two instructions carry, every result row has under that alias an
array. -/
theorem alias_is_array_for_groups_of_one_or_two (c : Cache) (i0 : JoinInstruction)
    (rest : List JoinInstruction) (results : Table) (a : String)
    (hok : (integrate (.val c) (.val (i0 :: rest))).outcome = .ok results)
    (hlen : ((i0 :: rest).filter (fun i => decide (i.aliasName = a))).length = 1
      ∨ ((i0 :: rest).filter (fun i => decide (i.aliasName = a))).length = 2) :
    ∀ row ∈ results, isArray (getProp row a) = true := by
  obtain ⟨first, others, -, rfl⟩ := integrate_ok_inv hok
  have hne : (i0 :: rest).filter (fun i => decide (i.aliasName = a)) ≠ [] := by
    intro h
    rw [h] at hlen
    simp at hlen
  obtain ⟨i, hi⟩ := List.exists_mem_of_ne_nil _ hne
  obtain ⟨hi1, hi2⟩ := List.mem_filter.1 hi
  have hia : i.aliasName = a := by simpa using hi2
  have hg := mem_groupByAlias_of_mem hi1
  rw [hia] at hg
  exact eachGroup_isArray _ _ _ a _ _ c hg hlen

/-- C8 at Scenario A: the one result row has an array under `posts`. -/
theorem alias_is_array_for_groups_of_one_or_two_witness :
    (integrate (.val cacheA) (.val [userPosts])).outcome
      = .ok [[("id", .num 1), ("name", .str "A"), ("posts", .arr [])]]
    ∧ isArray (getProp [("id", .num 1), ("name", .str "A"), ("posts", .arr [])] "posts") = true :=
  ⟨rfl, alias_is_array_for_groups_of_one_or_two cacheA userPosts [] _ "posts" rfl (Or.inl rfl)
    _ (List.mem_singleton.2 rfl)⟩

/-- C9 as stated fails when an alias has the name of a parent column: the pet
`{id: 1, owner: 7}` comes back as `{id: 1, owner: []}`, and without its alias
column that row is `{id: 1}`, not the input row. -/
theorem alias_overwrites_parent_column :
    (integrate (.val cachePets) (.val [petOwner])).outcome
      = .ok [[("id", .num 1), ("owner", .arr [])]]
    ∧ ¬ ([[("id", Val.num 1), ("owner", Val.arr [])]].map
          (fun r => omitCols r ([petOwner].map (fun i => i.aliasName)))
        = tableOf cachePets petOwner.parent) := by
  refine ⟨rfl, ?_⟩
  intro h
  have h2 := congrArg (fun t => t.map List.length) h
  revert h2
  decide

/-- C9, amended: a successful `integrate` returns as many rows as the parent
table had, in the same order, and each result row without the columns named like
an alias equals the corresponding input parent row without those columns. -/
theorem integrate_preserves_non_alias_columns (c : Cache) (i0 : JoinInstruction)
    (rest : List JoinInstruction) (results : Table)
    (hok : (integrate (.val c) (.val (i0 :: rest))).outcome = .ok results) :
    results.length = (tableOf c i0.parent).length
    ∧ results.map (fun r => omitCols r ((i0 :: rest).map (fun i => i.aliasName)))
      = (tableOf c i0.parent).map
          (fun r => omitCols r ((i0 :: rest).map (fun i => i.aliasName))) := by
  obtain ⟨first, others, -, rfl⟩ := integrate_ok_inv hok
  have h := eachGroup_omitCols i0.parent i0.parentKey (objectKeys first)
    ((i0 :: rest).map (fun i => i.aliasName)) (groupByAlias (i0 :: rest)) c
    (fun g hg => fst_mem_of_mem_groupByAlias hg)
  refine ⟨?_, h⟩
  have h2 := congrArg List.length h
  simpa using h2

/-- C9 at Scenario A: one row comes back, and without `posts` it is the input
row. -/
theorem integrate_preserves_non_alias_columns_witness :
    [[("id", Val.num 1), ("name", Val.str "A"), ("posts", Val.arr [])]].length
      = (tableOf cacheA userPosts.parent).length
    ∧ [[("id", Val.num 1), ("name", Val.str "A"), ("posts", Val.arr [])]].map
        (fun r => omitCols r ([userPosts].map (fun i => i.aliasName)))
      = (tableOf cacheA userPosts.parent).map
          (fun r => omitCols r ([userPosts].map (fun i => i.aliasName))) :=
  integrate_preserves_non_alias_columns cacheA userPosts [] _ rfl

/-- C10, the code on a cache without any user: no child row matches either pet,
the left outer join gives one placeholder row per pet, and both placeholders
stay in the result, `{}` under the `owner` of pet 1 and `{ownerId: 7}` under the
`owner` of pet 2, where the empty sequence is expected. Scenario C itself does
give `[{id: 1, name: "A", posts: []}]`. -/
theorem unmatched_placeholder_not_pruned :
    leftOuterJoin (tableOf cacheStray "pet") (tableOf cacheStray "user") "ownerId" "id"
      = tableOf cacheStray "pet"
    ∧ (integrate (.val cacheStray) (.val [petOwnerById])).outcome
      = .ok [[("id", .num 1), ("name", .str "Rex"), ("owner", .arr [.obj []])],
             [("id", .num 2), ("name", .str "Tom"), ("ownerId", .num 7),
              ("owner", .arr [.obj [("ownerId", .num 7)]])]]
    ∧ (integrate (.val cacheC) (.val [userPosts])).outcome
      = .ok [[("id", .num 1), ("name", .str "A"), ("posts", .arr [])]] :=
  ⟨rfl, rfl, rfl⟩


/-! ## Malformed groups -/

theorem eachAssociation_of_length (parent parentPK : String) (pnames : List String)
    (cache : Cache) (a : String) (instructions : List JoinInstruction)
    (h1 : instructions.length ≠ 1) (h2 : instructions.length ≠ 2) :
    eachAssociation parent parentPK pnames cache a instructions = cache := by
  unfold eachAssociation
  split
  · exact absurd rfl h2
  · exact absurd rfl h1
  · rfl

theorem eachGroup_filter (parent parentPK : String) (pnames : List String)
    (p : String × List JoinInstruction → Bool)
    (groups : List (String × List JoinInstruction)) (cache : Cache)
    (h : ∀ g ∈ groups, p g = false →
      ∀ c, eachAssociation parent parentPK pnames c g.1 g.2 = c) :
    eachGroup parent parentPK pnames groups cache
      = eachGroup parent parentPK pnames (groups.filter p) cache := by
  induction groups generalizing cache with
  | nil => rfl
  | cons g gs ih =>
    have ih2 := fun c => ih c (fun g2 hg2 => h g2 (List.mem_cons_of_mem _ hg2))
    cases hp : p g
    · have hg := h g (List.mem_cons_self _ _) hp cache
      simp only [eachGroup, List.foldl_cons, List.filter_cons, hp] at ih2 ⊢
      rw [hg]
      exact ih2 cache
    · simp only [eachGroup, List.foldl_cons, List.filter_cons, hp] at ih2 ⊢
      exact ih2 _

theorem snd_of_mem_groupByAlias {g : String × List JoinInstruction}
    {instructions : List JoinInstruction} (h : g ∈ groupByAlias instructions) :
    g.2 = instructions.filter (fun i => decide (i.aliasName = g.1)) := by
  unfold groupByAlias at h
  obtain ⟨a, -, rfl⟩ := List.mem_map.1 h
  rfl

theorem aliasesOf_filter_ne (a : String) (instructions : List JoinInstruction) :
    aliasesOf (instructions.filter (fun i => decide (i.aliasName ≠ a)))
      = (aliasesOf instructions).filter (fun b => decide (b ≠ a)) := by
  induction instructions with
  | nil => rfl
  | cons i is ih =>
    by_cases hia : i.aliasName = a
    · have e1 : (i :: is).filter (fun i => decide (i.aliasName ≠ a))
          = is.filter (fun i => decide (i.aliasName ≠ a)) := by
        simp [List.filter_cons, hia]
      rw [e1, ih]
      simp only [aliasesOf, List.filter_cons, hia]
      simp [List.filter_filter]
    · have e1 : (i :: is).filter (fun i => decide (i.aliasName ≠ a))
          = i :: is.filter (fun i => decide (i.aliasName ≠ a)) := by
        simp [List.filter_cons, hia]
      rw [e1]
      simp only [aliasesOf, ih, List.filter_cons, hia]
      simp only [List.filter_filter, ne_eq, not_false_eq_true, decide_True, if_true, if_false,
        decide_not, hia]
      congr 1
      apply List.filter_congr
      intro b _
      exact Bool.and_comm _ _

theorem groupByAlias_filter_ne (a : String) (instructions : List JoinInstruction) :
    groupByAlias (instructions.filter (fun i => decide (i.aliasName ≠ a)))
      = (groupByAlias instructions).filter (fun g => decide (g.1 ≠ a)) := by
  unfold groupByAlias
  rw [aliasesOf_filter_ne, List.filter_map]
  apply List.map_congr_left
  intro b hb
  have hba : b ≠ a := by simpa using (List.mem_filter.1 hb).2
  simp only [Function.comp, List.filter_filter, Prod.mk.injEq, true_and]
  apply List.filter_congr
  intro i _
  by_cases hib : i.aliasName = b
  · simp [hib, hba]
  · simp [hib]


/-! ## Objects: further facts -/

theorem mem_objectKeys_setProp_iff (row : Row) (k c : String) (v : Val) :
    c ∈ objectKeys (setProp row k v) ↔ c = k ∨ c ∈ objectKeys row := by
  refine ⟨mem_objectKeys_setProp, ?_⟩
  induction row with
  | nil =>
    intro h
    rcases h with h | h
    · simp [setProp, objectKeys, h]
    · simp [objectKeys] at h
  | cons d ds ih =>
    intro h
    unfold setProp
    split
    · rename_i hd
      simp only [objectKeys, List.map_cons, List.mem_cons] at h ⊢
      rcases h with h | h | h
      · exact Or.inl h
      · exact Or.inl (h.trans hd)
      · exact Or.inr h
    · simp only [objectKeys, List.map_cons, List.mem_cons] at h ih ⊢
      rcases h with h | h | h
      · exact Or.inr (ih (Or.inl h))
      · exact Or.inl h
      · exact Or.inr (ih (Or.inr h))

theorem getProp_filter_key (p : String → Bool) (row : Row) {c : String} (h : p c = true) :
    getProp (row.filter (fun e => p e.1)) c = getProp row c := by
  induction row with
  | nil => rfl
  | cons d ds ih =>
    obtain ⟨d1, d2⟩ := d
    cases hd : p d1
    · have hk : (c == d1) = false := by
        rw [beq_eq_false_iff_ne]
        intro hcd
        rw [hcd, hd] at h
        exact Bool.noConfusion h
      simp only [List.filter_cons, hd, getProp, List.lookup, hk] at ih ⊢
      exact ih
    · simp only [List.filter_cons, hd, getProp, List.lookup] at ih ⊢
      cases hb : c == d1
      · simpa using ih
      · rfl

theorem tableOf_setTable_of_ne (cache : Cache) {name other : String} (rows : Table)
    (h : other ≠ name) : tableOf (setTable cache name rows) other = tableOf cache other := by
  induction cache with
  | nil =>
    have hk : (other == name) = false := by simpa [beq_eq_false_iff_ne] using h
    simp [setTable, tableOf, List.lookup, hk]
  | cons d ds ih =>
    obtain ⟨d1, d2⟩ := d
    unfold setTable
    split
    · rename_i hd
      simp only at hd
      subst hd
      have hk : (other == d1) = false := by simpa [beq_eq_false_iff_ne] using h
      simp [tableOf, List.lookup, hk]
    · simp only [tableOf, List.lookup] at ih ⊢
      cases hb : other == d1
      · simpa using ih
      · rfl

theorem eachAssociation_other_table (parent parentPK : String) (pnames : List String)
    (cache : Cache) (a : String) (instructions : List JoinInstruction) {other : String}
    (h : other ≠ parent) :
    tableOf (eachAssociation parent parentPK pnames cache a instructions) other
      = tableOf cache other := by
  unfold eachAssociation
  split
  · exact tableOf_setTable_of_ne _ _ h
  · exact tableOf_setTable_of_ne _ _ h
  · rfl

theorem eachGroup_other_table (parent parentPK : String) (pnames : List String)
    (groups : List (String × List JoinInstruction)) (cache : Cache) {other : String}
    (h : other ≠ parent) :
    tableOf (eachGroup parent parentPK pnames groups cache) other = tableOf cache other := by
  induction groups generalizing cache with
  | nil => rfl
  | cons g gs ih =>
    exact (ih _).trans (eachAssociation_other_table parent parentPK pnames cache g.1 g.2 h)

/-! ## Claims, continued -/

/-- C11: an alias carried by neither one nor two instructions is skipped without
any effect. When the parent table has a first row, `integrate` returns the result
set obtained by running the loop over the groups of the other aliases only; and
when the first instruction has another alias, the outcome and the cache the call
leaves are those of the call without the instructions of that alias. -/
theorem malformed_group_is_skipped (c : Cache) (i0 : JoinInstruction)
    (rest : List JoinInstruction) (a : String)
    (h1 : ((i0 :: rest).filter (fun i => decide (i.aliasName = a))).length ≠ 1)
    (h2 : ((i0 :: rest).filter (fun i => decide (i.aliasName = a))).length ≠ 2) :
    (∀ first others, List.lookup i0.parent c = some (first :: others) →
      (integrate (.val c) (.val (i0 :: rest))).outcome
        = .ok (tableOf (eachGroup i0.parent i0.parentKey (objectKeys first)
            ((groupByAlias (i0 :: rest)).filter (fun g => decide (g.1 ≠ a))) c) i0.parent))
    ∧ (i0.aliasName ≠ a →
      (integrate (.val c) (.val (i0 :: rest))).outcome
        = (integrate (.val c)
            (.val ((i0 :: rest).filter (fun i => decide (i.aliasName ≠ a))))).outcome
      ∧ (integrate (.val c) (.val (i0 :: rest))).cache
        = (integrate (.val c)
            (.val ((i0 :: rest).filter (fun i => decide (i.aliasName ≠ a))))).cache) := by
  have hskip : ∀ parent parentPK pnames cache,
      eachGroup parent parentPK pnames (groupByAlias (i0 :: rest)) cache
        = eachGroup parent parentPK pnames
            ((groupByAlias (i0 :: rest)).filter (fun g => decide (g.1 ≠ a))) cache := by
    intro parent parentPK pnames cache
    apply eachGroup_filter
    intro g hg hp c2
    have hga : g.1 = a := by simpa using hp
    have hsnd := snd_of_mem_groupByAlias hg
    rw [hga] at hsnd
    apply eachAssociation_of_length
    · rw [hsnd]; exact h1
    · rw [hsnd]; exact h2
  constructor
  · intro first others hl
    simp only [integrate, hl, hskip]
  · intro hne
    have e : (i0 :: rest).filter (fun i => decide (i.aliasName ≠ a))
        = i0 :: rest.filter (fun i => decide (i.aliasName ≠ a)) := by
      simp [List.filter_cons, hne]
    have hg := groupByAlias_filter_ne a (i0 :: rest)
    rw [e] at hg ⊢
    cases hl : List.lookup i0.parent c with
    | none => simp only [integrate, hl, and_self]
    | some t =>
      cases t with
      | nil => simp only [integrate, hl, and_self]
      | cons first others =>
        simp only [integrate, hl, hskip, hg, and_self]

/-- C11 on the cache of Scenario A: three instructions under the alias `tags`
next to the instruction of Scenario A change nothing. -/
theorem malformed_group_is_skipped_witness :
    (integrate (.val cacheA)
        (.val [userPosts, junctionToTag, junctionToTag, junctionToTag])).outcome
      = (integrate (.val cacheA) (.val [userPosts])).outcome :=
  ((malformed_group_is_skipped cacheA userPosts [junctionToTag, junctionToTag, junctionToTag]
    "tags" (by decide) (by decide)).2 (by decide)).1

/-- C12: the rows `_sanitize` returns correspond one to one, in order, to the
input rows with a truthy `fk`; the columns of each are the input row's columns
that are neither in `attributesToOmit` nor `fk`, together with `pk`, and every
column other than `pk` has the value it had in the input row. -/
theorem sanitized_row_content (rows : Table) (fk pk : String) (attributesToOmit : List String) :
    List.Forall₂
      (fun r out =>
        (∀ c, c ∈ objectKeys out ↔
          (c ∈ objectKeys r ∧ c ∉ attributesToOmit ∧ c ≠ fk) ∨ c = pk)
        ∧ ∀ c, c ∈ objectKeys out → c ≠ pk → getProp out c = getProp r c)
      (rows.filter (fun r => truthy (getProp r fk)))
      (_sanitize rows fk pk attributesToOmit) := by
  rw [sanitize_eq_filter_map, List.forall₂_map_right_iff]
  apply List.forall₂_same.2
  intro r _
  have hkeys : ∀ c, c ∈ objectKeys (deleteProp (omitCols r attributesToOmit) fk) ↔
      (c ∈ objectKeys r ∧ c ∉ attributesToOmit ∧ c ≠ fk) := by
    intro c
    constructor
    · intro h
      have hd := mem_objectKeys_deleteProp h
      have ho := mem_objectKeys_omitCols hd.1
      exact ⟨ho.1, ho.2, hd.2⟩
    · rintro ⟨hc, ho, hf⟩
      unfold objectKeys at hc
      obtain ⟨e, he, rfl⟩ := List.mem_map.1 hc
      unfold objectKeys deleteProp omitCols
      refine List.mem_map.2 ⟨e, ?_, rfl⟩
      rw [List.mem_filter, List.mem_filter]
      exact ⟨⟨he, by simpa using ho⟩, by simpa using hf⟩
  constructor
  · intro c
    unfold sanitizeRow
    simp only
    rw [mem_objectKeys_setProp_iff, hkeys]
    exact Or.comm
  · intro c hc hne
    unfold sanitizeRow at hc ⊢
    simp only at hc ⊢
    rw [getProp_setProp_of_ne _ _ hne]
    rcases (mem_objectKeys_setProp_iff _ _ _ _).1 hc with h | h
    · exact absurd h hne
    · obtain ⟨-, ho, hf⟩ := (hkeys c).1 h
      unfold deleteProp omitCols
      rw [getProp_filter_key (fun k => decide (k ≠ fk)) _ (by simpa using hf),
        getProp_filter_key (fun k => decide (k ∉ attributesToOmit)) _ (by simpa using ho)]

/-- C13, the code at Scenario A: both rows the one-to-many path hands to
`populate` have the columns `userId` and `title`; the child key `userId` is
still there. -/
theorem scenarioA_rows_keep_child_key :
    (oneToManyRows cacheA (objectKeys [("id", .num 1), ("name", .str "A")]) userPosts).map
        objectKeys
      = [[userPosts.childKey, "title"], [userPosts.childKey, "title"]] :=
  rfl

/-- C14: when `integrate` returns a result set, the cache it leaves holds that
very result set as its parent table, and every other table as it was. -/
theorem results_are_cached_parent_table (c : Cache) (i0 : JoinInstruction)
    (rest : List JoinInstruction) (results : Table)
    (hok : (integrate (.val c) (.val (i0 :: rest))).outcome = .ok results) :
    ∃ c1, (integrate (.val c) (.val (i0 :: rest))).cache = .val c1
      ∧ tableOf c1 i0.parent = results
      ∧ ∀ other, other ≠ i0.parent → tableOf c1 other = tableOf c other := by
  cases hl : List.lookup i0.parent c with
  | none => simp [integrate, hl] at hok
  | some t =>
    cases t with
    | nil => simp [integrate, hl] at hok
    | cons first others =>
      simp only [integrate, hl, Outcome.ok.injEq] at hok ⊢
      exact ⟨_, rfl, hok, fun other h => eachGroup_other_table _ _ _ _ _ h⟩

/-- C14 at Scenario A: the cache the call leaves has the result set as its `user`
table and the `post` table as it was. -/
theorem results_are_cached_parent_table_witness :
    ∃ c1, (integrate (.val cacheA) (.val [userPosts])).cache = .val c1
      ∧ tableOf c1 "user" = [[("id", .num 1), ("name", .str "A"), ("posts", .arr [])]]
      ∧ ∀ other, other ≠ "user" → tableOf c1 other = tableOf cacheA other :=
  results_are_cached_parent_table cacheA userPosts [] _ rfl

/-- C15, the code with `posts` processed before `tags`: the entry attached under
`tags` has a column `posts`, the alias processed earlier, which it does not have
when the two `tags` instructions are the only ones given on the same cache. -/
theorem later_alias_entries_carry_earlier_alias :
    (integrate (.val cacheBoth) (.val [userPosts, userToJunction, junctionToTag])).outcome
      = .ok [[("id", .num 1), ("name", .str "A"), ("posts", .arr []),
              ("tags", .arr [.obj [("posts", .arr []), ("userId", .num 1),
                                   ("label", .str "vip"), ("id", .num 1)]])]]
    ∧ (integrate (.val cacheBoth) (.val [userToJunction, junctionToTag])).outcome
      = .ok [[("id", .num 1), ("name", .str "A"),
              ("tags", .arr [.obj [("userId", .num 1), ("label", .str "vip"),
                                   ("id", .num 1)]])]] :=
  ⟨rfl, rfl⟩

end Waterline
